import Mathlib

/-!
Verification of the CasperLabs execution-engine state/effect layer.

The development shallowly embeds the versioned system-contract registry
(engine-storage/src/protocol_data.rs), its byte serialization, and -- modelled
from the specification where the implementing crate is outside the sources --
the effect/transform merge algebra, the version-compatibility gate, and the
capability group registry, then proves the specified properties about them.
-/

namespace CasperLabs

/-- A contract hash / key-hash address: a sequence of bytes (32 bytes when
well-formed), embedding the Rust type ContractHash = HashAddr = [u8; 32]. -/
abbrev ContractHash := List Nat

/-- The number of bytes in a key hash, embedding KEY_HASH_LENGTH. -/
def KEY_HASH_LENGTH : Nat := 32

/-- The all-zero sentinel address, embedding DEFAULT_ADDRESS = [0; 32]. -/
def DEFAULT_ADDRESS : ContractHash := List.replicate 32 0

/-- The wasm cost table.  Modelled from the spec: the WasmCosts struct lives in
the external engine-wasm-prep crate (out of scope per the spec); its ten u32
fields are taken from the wasm_costs_mock fixture in
engine-storage/src/protocol_data.rs.  Field values are naturals that are below
2 to the 32 when well-formed. -/
structure WasmCosts where
  regular : Nat
  div : Nat
  mul : Nat
  mem : Nat
  initial_mem : Nat
  grow_mem : Nat
  memcpy : Nat
  max_stack_height : Nat
  opcodes_mul : Nat
  opcodes_div : Nat
deriving DecidableEq

/-- All fields of a wasm cost table fit in a u32. -/
def WasmCosts.WF (w : WasmCosts) : Prop :=
  w.regular < 4294967296 ∧ w.div < 4294967296 ∧ w.mul < 4294967296 ∧
  w.mem < 4294967296 ∧ w.initial_mem < 4294967296 ∧ w.grow_mem < 4294967296 ∧
  w.memcpy < 4294967296 ∧ w.max_stack_height < 4294967296 ∧
  w.opcodes_mul < 4294967296 ∧ w.opcodes_div < 4294967296

instance (w : WasmCosts) : Decidable w.WF := by
  unfold WasmCosts.WF; infer_instance

/-- The wasm-costs fixture used by the tests in protocol_data.rs
(wasm_costs_mock). -/
def wasm_costs_mock : WasmCosts :=
  { regular := 1, div := 16, mul := 4, mem := 2, initial_mem := 4096,
    grow_mem := 8192, memcpy := 1, max_stack_height := 65536,
    opcodes_mul := 3, opcodes_div := 8 }

/-- A protocol data record, embedding struct ProtocolData of
engine-storage/src/protocol_data.rs. -/
structure ProtocolData where
  wasm_costs : WasmCosts
  mint : ContractHash
  proof_of_stake : ContractHash
  standard_payment : ContractHash
deriving DecidableEq

/-- The default instance, embedding impl Default for ProtocolData: default
costs and the all-zero sentinel in every slot. -/
def ProtocolData.default_pd : ProtocolData :=
  { wasm_costs := wasm_costs_mock, mint := DEFAULT_ADDRESS,
    proof_of_stake := DEFAULT_ADDRESS, standard_payment := DEFAULT_ADDRESS }

/-- Embeds ProtocolData::system_contracts: push each of mint, proof_of_stake,
standard_payment, in that order, whenever it differs from DEFAULT_ADDRESS. -/
def ProtocolData.system_contracts (pd : ProtocolData) : List ContractHash :=
  (if pd.mint ≠ DEFAULT_ADDRESS then [pd.mint] else []) ++
  (if pd.proof_of_stake ≠ DEFAULT_ADDRESS then [pd.proof_of_stake] else []) ++
  (if pd.standard_payment ≠ DEFAULT_ADDRESS then [pd.standard_payment] else [])

/-- Embeds ProtocolData::update_from.  The Rust function takes a
BTreeMap and iterates it in ascending key order; here the argument is that
iteration sequence.  Each pair replaces the first slot (mint, then
proof_of_stake, then standard_payment) currently equal to its first component;
if no slot matches, iteration stops and false is returned, with the record
kept in the state the already-processed pairs produced (the Rust method
mutates self in place before returning false). -/
def ProtocolData.update_from :
    ProtocolData → List (ContractHash × ContractHash) → ProtocolData × Bool
  | pd, [] => (pd, true)
  | pd, (old_hash, new_hash) :: rest =>
    if old_hash = pd.mint then
      ProtocolData.update_from { pd with mint := new_hash } rest
    else if old_hash = pd.proof_of_stake then
      ProtocolData.update_from { pd with proof_of_stake := new_hash } rest
    else if old_hash = pd.standard_payment then
      ProtocolData.update_from { pd with standard_payment := new_hash } rest
    else (pd, false)

/-- Strict lexicographic byte order on addresses: the order in which a Rust
BTreeMap keyed by [u8; 32] iterates its entries. -/
def hashLtB : List Nat → List Nat → Bool
  | [], [] => false
  | [], _ :: _ => true
  | _ :: _, [] => false
  | a :: as, b :: bs => if a < b then true else if a = b then hashLtB as bs else false

/-- First-component lookup in an association list of address pairs, mirroring
BTreeMap.get on the update mapping. -/
def lookupHash : List (ContractHash × ContractHash) → ContractHash → Option ContractHash
  | [], _ => none
  | (o, n) :: rest, a => if a = o then some n else lookupHash rest a

/-! ## Byte serialization (bytesrepr embedding)

Modelled from the spec where the bytesrepr crate is outside the sources: a u32
serializes to four little-endian bytes; a 32-byte hash serializes to its raw
bytes; ProtocolData serializes as the cost-table bytes followed by the three
addresses (impl ToBytes / FromBytes for ProtocolData in protocol_data.rs). -/

/-- Little-endian four-byte encoding of a u32. -/
def toBytesU32 (n : Nat) : List Nat :=
  [n % 256, n / 256 % 256, n / 65536 % 256, n / 16777216 % 256]

/-- Reads a little-endian u32 from the front of a byte buffer, returning the
value and the remaining bytes, or failing when fewer than four bytes remain. -/
def fromBytesU32 : List Nat → Option (Nat × List Nat)
  | b0 :: b1 :: b2 :: b3 :: rest =>
    some (b0 + b1 * 256 + b2 * 65536 + b3 * 16777216, rest)
  | _ => none

/-- The byte length of a serialized wasm cost table: ten u32 fields.
Embeds WASM_COSTS_SERIALIZED_LENGTH. -/
def WASM_COSTS_SERIALIZED_LENGTH : Nat := 40

/-- Modelled from the spec: serialization of the (external) wasm cost table,
field by field in declaration order. -/
def WasmCosts.to_bytes (w : WasmCosts) : List Nat :=
  toBytesU32 w.regular ++ toBytesU32 w.div ++ toBytesU32 w.mul ++
  toBytesU32 w.mem ++ toBytesU32 w.initial_mem ++ toBytesU32 w.grow_mem ++
  toBytesU32 w.memcpy ++ toBytesU32 w.max_stack_height ++
  toBytesU32 w.opcodes_mul ++ toBytesU32 w.opcodes_div

/-- Modelled from the spec: deserialization of the (external) wasm cost table,
reading ten u32 fields in declaration order. -/
def WasmCosts.from_bytes (bs : List Nat) : Option (WasmCosts × List Nat) := do
  let (regular, bs) ← fromBytesU32 bs
  let (div, bs) ← fromBytesU32 bs
  let (mul, bs) ← fromBytesU32 bs
  let (mem, bs) ← fromBytesU32 bs
  let (initial_mem, bs) ← fromBytesU32 bs
  let (grow_mem, bs) ← fromBytesU32 bs
  let (memcpy, bs) ← fromBytesU32 bs
  let (max_stack_height, bs) ← fromBytesU32 bs
  let (opcodes_mul, bs) ← fromBytesU32 bs
  let (opcodes_div, bs) ← fromBytesU32 bs
  some (⟨regular, div, mul, mem, initial_mem, grow_mem, memcpy,
    max_stack_height, opcodes_mul, opcodes_div⟩, bs)

/-- Reads a 32-byte hash address from the front of a byte buffer, embedding
HashAddr::from_bytes: take the first KEY_HASH_LENGTH bytes, fail when the
buffer is shorter. -/
def fromBytesHash (bs : List Nat) : Option (ContractHash × List Nat) :=
  if 32 ≤ bs.length then some (bs.take 32, bs.drop 32) else none

/-- The serialized length of a protocol data record, embedding
PROTOCOL_DATA_SERIALIZED_LENGTH = WASM_COSTS_SERIALIZED_LENGTH
+ 3 * KEY_HASH_LENGTH. -/
def PROTOCOL_DATA_SERIALIZED_LENGTH : Nat :=
  WASM_COSTS_SERIALIZED_LENGTH + 3 * KEY_HASH_LENGTH

/-- Embeds impl ToBytes for ProtocolData: cost-table bytes, then mint,
proof_of_stake and standard_payment address bytes, in that order. -/
def ProtocolData.to_bytes (pd : ProtocolData) : List Nat :=
  pd.wasm_costs.to_bytes ++ pd.mint ++ pd.proof_of_stake ++ pd.standard_payment

/-- Embeds impl FromBytes for ProtocolData: read the cost table, then the
three addresses, propagating failure from any sub-decode. -/
def ProtocolData.from_bytes (bs : List Nat) : Option (ProtocolData × List Nat) := do
  let (wasm_costs, bs) ← WasmCosts.from_bytes bs
  let (mint, bs) ← fromBytesHash bs
  let (proof_of_stake, bs) ← fromBytesHash bs
  let (standard_payment, bs) ← fromBytesHash bs
  some (⟨wasm_costs, mint, proof_of_stake, standard_payment⟩, bs)

/-- A well-formed protocol data record: the cost fields fit in a u32 and the
three addresses are 32 actual bytes each. -/
def ProtocolData.WF (pd : ProtocolData) : Prop :=
  pd.wasm_costs.WF ∧
  pd.mint.length = 32 ∧ (∀ b ∈ pd.mint, b < 256) ∧
  pd.proof_of_stake.length = 32 ∧ (∀ b ∈ pd.proof_of_stake, b < 256) ∧
  pd.standard_payment.length = 32 ∧ (∀ b ∈ pd.standard_payment, b < 256)

instance (pd : ProtocolData) : Decidable pd.WF := by
  unfold ProtocolData.WF; infer_instance

/-! ## Effect/transform model

Modelled from the spec: the Transform type and its merge algebra are
implemented in an external crate (only the engine tests appear in the
sources), so the definitions below follow the spec, section 4.2: Write then
anything but a Write keeps the written value, folding a numeric delta into a
numeric written value and rejecting the fold into a non-numeric one;
AddUInt512 then AddUInt512 sums the deltas, rejecting overflow past the
numeric width; Identity is absorbed by anything; a later Write replaces
whatever preceded it. -/

/-- The u512 numeric width bound. -/
def U512_LIMIT : Nat := 2 ^ 512

/-- A stored value: either a numeric u512 value or a non-numeric value
(abstracted to a tag). -/
inductive Value where
  | uint512 : Nat → Value
  | other : Nat → Value
deriving DecidableEq

/-- A transform on one key, as in the spec data model: unconditional write,
numeric accumulation, or tracked no-op. -/
inductive Transform where
  | identity : Transform
  | write : Value → Transform
  | addUInt512 : Nat → Transform
deriving DecidableEq

/-- Merge failure kinds exposed to callers. -/
inductive MergeError where
  | typeMismatch : MergeError
  | overflow : MergeError
deriving DecidableEq

/-- Modelled from the spec: merge of two transforms applied to the same key,
first argument first. -/
def Transform.merge : Transform → Transform → Except MergeError Transform
  | Transform.identity, t => Except.ok t
  | t, Transform.identity => Except.ok t
  | _, Transform.write v => Except.ok (Transform.write v)
  | Transform.write (Value.uint512 n), Transform.addUInt512 d =>
    if n + d < U512_LIMIT then Except.ok (Transform.write (Value.uint512 (n + d)))
    else Except.error MergeError.overflow
  | Transform.write (Value.other _), Transform.addUInt512 _ =>
    Except.error MergeError.typeMismatch
  | Transform.addUInt512 a, Transform.addUInt512 b =>
    if a + b < U512_LIMIT then Except.ok (Transform.addUInt512 (a + b))
    else Except.error MergeError.overflow

/-! ## Version-compatibility gate

Modelled from the spec: the gate implementation is external to the sources
(only the engine tests appear).  Spec section 4.4: the gate compares major
components only, and runs after a single resolution step, so the addressing
mode and the session/payment distinction are irrelevant to the decision. -/

/-- A protocol version triple. -/
structure ProtocolVersion where
  major : Nat
  minor : Nat
  patch : Nat
deriving DecidableEq

/-- How a stored target is addressed in a deploy. -/
inductive AddressingMode where
  | byHash : AddressingMode
  | byName : AddressingMode
  | byCapability : AddressingMode
deriving DecidableEq

/-- Whether the stored target is session code or payment code. -/
inductive TargetKind where
  | session : TargetKind
  | payment : TargetKind
deriving DecidableEq

/-- Outcome of the compatibility check, carrying the structured error data. -/
inductive VersionCheckResult where
  | compatible : VersionCheckResult
  | incompatibleProtocolMajorVersion (expected actual : Nat) : VersionCheckResult
deriving DecidableEq

/-- Modelled from the spec: compare the majors of the requested and the
stored (stamp) version; on mismatch produce the structured error with
expected = requested major and actual = stored major. -/
def versionGate (request stored : ProtocolVersion) : VersionCheckResult :=
  if request.major = stored.major then VersionCheckResult.compatible
  else VersionCheckResult.incompatibleProtocolMajorVersion request.major stored.major

/-- Modelled from the spec: the gate as invoked on a resolved stored target;
resolution happens before the gate, so the addressing mode and target kind do
not enter the decision. -/
def gateFor (_mode : AddressingMode) (_kind : TargetKind)
    (request stored : ProtocolVersion) : VersionCheckResult :=
  versionGate request stored

/-! ## Capability group registry

Modelled from the spec: the contract-metadata group operations are
implemented in the external types crate (contract_header); only the engine
tests appear in the sources.  Spec section 4.3: groups are named sets of
unforgeable references scoped to one contract's metadata; extension mints
fresh references subject to a cap on the total distinct references across all
groups; removal of listed references from a group ignores absent ones;
removing one group leaves the other groups' membership untouched.
MAX_GROUP_UREFS = 10 is fixed by the engine test
should_limit_max_urefs_while_extending: a group of 2 extended by 8 reaches
exactly MAX_GROUP_UREFS and an extension by one more fails. -/

/-- The cap on the total distinct references across all groups of one
contract. -/
def MAX_GROUP_UREFS : Nat := 10

/-- Group operation failure kinds. -/
inductive GroupError where
  | maxTotalURefsExceeded : GroupError
  | groupAlreadyExists : GroupError
  | groupDoesNotExist : GroupError
deriving DecidableEq

/-- One contract's metadata: the named groups in insertion order, each owning
a set of unforgeable references (represented by naturals), and the next fresh
reference the engine would mint for this contract. -/
structure ContractMetadata where
  groups : List (String × Finset Nat)
  next : Nat
deriving DecidableEq

/-- The union of all group memberships of a contract. -/
def bigUnion (gs : List (String × Finset Nat)) : Finset Nat :=
  gs.foldr (fun g acc => g.2 ∪ acc) ∅

/-- The total number of distinct references across all groups. -/
def totalURefs (m : ContractMetadata) : Nat := (bigUnion m.groups).card

/-- The references freshly minted by one extension: count references starting
at the contract's next-fresh counter. -/
def mintSet (next count : Nat) : Finset Nat :=
  (Finset.range count).image (fun i => next + i)

/-- Freshness invariant: every reference already held by some group precedes
the next-fresh counter. -/
def ContractMetadata.WF (m : ContractMetadata) : Prop :=
  ∀ x ∈ bigUnion m.groups, x < m.next

instance (m : ContractMetadata) : Decidable m.WF := by
  unfold ContractMetadata.WF; infer_instance

/-- Adds the given references to the named group, failing when no group has
that name. -/
def addToGroup :
    List (String × Finset Nat) → String → Finset Nat →
      Option (List (String × Finset Nat))
  | [], _, _ => none
  | (n, s) :: rest, name, add =>
    if n = name then some ((n, s ∪ add) :: rest)
    else (addToGroup rest name add).map (fun gs => (n, s) :: gs)

/-- Removes the given references from the named group (references absent from
the group are simply not there to remove), failing when no group has that
name. -/
def removeFromGroup :
    List (String × Finset Nat) → String → Finset Nat →
      Option (List (String × Finset Nat))
  | [], _, _ => none
  | (n, s) :: rest, name, rem =>
    if n = name then some ((n, s \ rem) :: rest)
    else (removeFromGroup rest name rem).map (fun gs => (n, s) :: gs)

/-- Modelled from the spec: extend_group_urefs(name, count) checks the total
distinct-reference count across all groups against MAX_GROUP_UREFS before
mutating, then mints count fresh references into the named group. -/
def extend_group_urefs (m : ContractMetadata) (name : String) (count : Nat) :
    Except GroupError ContractMetadata :=
  if MAX_GROUP_UREFS < totalURefs m + count then
    Except.error GroupError.maxTotalURefsExceeded
  else
    match addToGroup m.groups name (mintSet m.next count) with
    | none => Except.error GroupError.groupDoesNotExist
    | some gs => Except.ok { groups := gs, next := m.next + count }

/-- Modelled from the spec: remove_group_urefs(name, urefs) removes exactly
the listed references from the named group, ignoring listed references the
group does not hold, and touching no other group. -/
def remove_group_urefs (m : ContractMetadata) (name : String)
    (urefs : Finset Nat) : Except GroupError ContractMetadata :=
  match removeFromGroup m.groups name urefs with
  | none => Except.error GroupError.groupDoesNotExist
  | some gs => Except.ok { groups := gs, next := m.next }

/-- Modelled from the spec: remove_group(name) deletes the named group,
leaving every other group and its membership in place. -/
def remove_group (m : ContractMetadata) (name : String) :
    Except GroupError ContractMetadata :=
  if name ∈ m.groups.map Prod.fst then
    Except.ok { groups := m.groups.filter (fun g => g.1 ≠ name), next := m.next }
  else Except.error GroupError.groupDoesNotExist

/-! ## Concrete fixtures used by counterexamples and witnesses -/

/-- A concrete nonzero 32-byte address: 32 copies of byte 1. -/
def addrA : ContractHash := List.replicate 32 1

/-- A concrete nonzero 32-byte address: 32 copies of byte 2. -/
def addrP : ContractHash := List.replicate 32 2

/-- A concrete nonzero 32-byte address: 32 copies of byte 3. -/
def addrB : ContractHash := List.replicate 32 3

/-- A concrete nonzero 32-byte address: 32 copies of byte 4. -/
def addrY : ContractHash := List.replicate 32 4

/-- A concrete nonzero 32-byte address: 32 copies of byte 5. -/
def addrS : ContractHash := List.replicate 32 5

/-- A concrete nonzero 32-byte address: 32 copies of byte 6. -/
def addrR : ContractHash := List.replicate 32 6

/-- A concrete nonzero 32-byte address: 32 copies of byte 9. -/
def addrQ : ContractHash := List.replicate 32 9

/-- A partial record whose only assigned slot is mint = addrA. -/
def pdA : ProtocolData :=
  { wasm_costs := wasm_costs_mock, mint := addrA,
    proof_of_stake := DEFAULT_ADDRESS, standard_payment := DEFAULT_ADDRESS }

/-- The record pdA after its mint slot is rewritten to addrB. -/
def pdB : ProtocolData := { pdA with mint := addrB }

/-- A complete record with three distinct nonzero slots. -/
def pdFull : ProtocolData :=
  { wasm_costs := wasm_costs_mock, mint := addrA,
    proof_of_stake := addrP, standard_payment := addrS }

/-- A contract with two groups, nine distinct references in total, used as
the witness fixture for the cap claim. -/
def mdW : ContractMetadata :=
  { groups := [("Group 1", {0, 1}), ("Group 2", {2, 3, 4, 5, 6, 7, 8})],
    next := 9 }

/-- A contract with two groups sharing reference 0, used as the witness
fixture for the removal-independence claim. -/
def mdShared : ContractMetadata :=
  { groups := [("Group 1", {0, 1}), ("Group 2", {0})], next := 2 }

/-! ## Theorems -/

/-- Claim C5: system_contracts returns exactly the addresses among mint,
proof_of_stake and standard_payment that differ from the all-zero sentinel,
in that fixed order; in particular the all-default record yields the empty
list, a record with only mint set yields the one-element list holding mint,
and a complete record yields all three in order. -/
theorem system_contracts_filters_sentinel (pd : ProtocolData) :
    pd.system_contracts =
      List.filter (fun a => decide (a ≠ DEFAULT_ADDRESS))
        [pd.mint, pd.proof_of_stake, pd.standard_payment] := by
  unfold ProtocolData.system_contracts
  split_ifs <;> simp_all

/-- Claim C10: update_from applies a single pair by testing the three slots
in the fixed order mint, proof_of_stake, standard_payment with a first-match
rule and without any special case for the all-zero sentinel: when the same
address occupies several slots, only the first matching slot in that order is
replaced and the later slots keep the old address. -/
theorem update_from_first_match_single_pair (pd : ProtocolData)
    (a b : ContractHash) :
    pd.update_from [(a, b)] =
      if a = pd.mint then ({ pd with mint := b }, true)
      else if a = pd.proof_of_stake then ({ pd with proof_of_stake := b }, true)
      else if a = pd.standard_payment then ({ pd with standard_payment := b }, true)
      else (pd, false) := by
  simp only [ProtocolData.update_from]

/-- Claim C8: the transform merge algebra: two numeric accumulations merge by
summing the deltas when the sum stays inside the u512 width; a numeric
accumulation folds into a numeric written value; and Identity is a two-sided
identity element of the merge. -/
theorem transform_merge_algebra (a b w d : Nat) (x : Transform)
    (h1 : a + b < U512_LIMIT) (h2 : w + d < U512_LIMIT) :
    Transform.merge (Transform.addUInt512 a) (Transform.addUInt512 b) =
      Except.ok (Transform.addUInt512 (a + b)) ∧
    Transform.merge (Transform.write (Value.uint512 w)) (Transform.addUInt512 d) =
      Except.ok (Transform.write (Value.uint512 (w + d))) ∧
    Transform.merge Transform.identity x = Except.ok x ∧
    Transform.merge x Transform.identity = Except.ok x := by
  refine ⟨?_, ?_, ?_, ?_⟩
  · simp [Transform.merge, h1]
  · simp [Transform.merge, h2]
  · cases x <;> rfl
  · cases x <;> simp [Transform.merge]

/-- Witness for claim C8 at the concrete inputs of the spec examples:
merging AddUInt512 3 with AddUInt512 4 gives AddUInt512 7, merging
Write 10 with AddUInt512 5 gives Write 15, and Identity is absorbed. -/
theorem transform_merge_algebra_witness :
    3 + 4 < U512_LIMIT ∧ 10 + 5 < U512_LIMIT ∧
    (Transform.merge (Transform.addUInt512 3) (Transform.addUInt512 4) =
      Except.ok (Transform.addUInt512 7) ∧
    Transform.merge (Transform.write (Value.uint512 10)) (Transform.addUInt512 5) =
      Except.ok (Transform.write (Value.uint512 15)) ∧
    Transform.merge Transform.identity (Transform.write (Value.uint512 7)) =
      Except.ok (Transform.write (Value.uint512 7)) ∧
    Transform.merge (Transform.write (Value.uint512 7)) Transform.identity =
      Except.ok (Transform.write (Value.uint512 7))) :=
  ⟨by norm_num [U512_LIMIT], by norm_num [U512_LIMIT], by
    simpa using transform_merge_algebra 3 4 10 5
      (Transform.write (Value.uint512 7))
      (by norm_num [U512_LIMIT]) (by norm_num [U512_LIMIT])⟩

/-- Claim C4: the version-compatibility gate yields Compatible exactly when
the requested major equals the stored major (minor and patch never cause
rejection), otherwise the structured error carries expected = requested major
and actual = stored major; the decision ignores the addressing mode and the
session/payment distinction; in particular a 1.0.0 stamp invoked at 1.5.2
passes and invoked at 2.0.0 fails with expected 2, actual 1. -/
theorem version_gate_spec (mode : AddressingMode) (kind : TargetKind)
    (request stored : ProtocolVersion) :
    (gateFor mode kind request stored = VersionCheckResult.compatible ↔
      request.major = stored.major) ∧
    (request.major ≠ stored.major →
      gateFor mode kind request stored =
        VersionCheckResult.incompatibleProtocolMajorVersion
          request.major stored.major) ∧
    (∀ mode2 kind2, gateFor mode kind request stored =
      gateFor mode2 kind2 request stored) ∧
    gateFor mode kind ⟨1, 5, 2⟩ ⟨1, 0, 0⟩ = VersionCheckResult.compatible ∧
    gateFor mode kind ⟨2, 0, 0⟩ ⟨1, 0, 0⟩ =
      VersionCheckResult.incompatibleProtocolMajorVersion 2 1 := by
  refine ⟨?_, ?_, fun _ _ => rfl, rfl, rfl⟩
  · unfold gateFor versionGate
    split_ifs with h <;> simp [h]
  · intro h
    unfold gateFor versionGate
    rw [if_neg h]

/-- Witness for claim C4: a stored payment module stamped 1.0.0 addressed by
name and requested at 2.0.0 is rejected with the structured error carrying
expected 2 and actual 1. -/
theorem version_gate_spec_witness :
    (ProtocolVersion.mk 2 0 0).major ≠ (ProtocolVersion.mk 1 0 0).major ∧
    gateFor AddressingMode.byName TargetKind.payment ⟨2, 0, 0⟩ ⟨1, 0, 0⟩ =
      VersionCheckResult.incompatibleProtocolMajorVersion 2 1 :=
  ⟨by decide,
    (version_gate_spec AddressingMode.byName TargetKind.payment
      ⟨2, 0, 0⟩ ⟨1, 0, 0⟩).2.1 (by decide)⟩

/-- Counterexample to claim C1 as stated: on the record with mint = addrA and
the ascending update mapping addrA to addrB, addrP to addrY (the second pair
matching no slot), update_from reports failure but the record is not left as
it was: the first pair was already applied and mint now holds addrB. -/
theorem update_from_not_all_or_nothing_cex :
    hashLtB addrA addrP = true ∧
    addrA = pdA.mint ∧
    addrP ≠ pdA.mint ∧ addrP ≠ pdA.proof_of_stake ∧ addrP ≠ pdA.standard_payment ∧
    pdA.update_from [(addrA, addrB), (addrP, addrY)] = (pdB, false) ∧
    pdB ≠ pdA ∧ pdB.mint = addrB := by decide

/-- Claim C1 amended: when update_from meets a pair whose old address matches
none of the three addresses current at that point, it returns failure, keeps
the modifications made by the pairs already processed (in the ascending key
order of the mapping), and examines no further pair; it does not restore the
original record. -/
theorem update_from_failure_keeps_prefix_updates (pd pd2 : ProtocolData)
    (pre post : List (ContractHash × ContractHash)) (o n : ContractHash)
    (hpre : pd.update_from pre = (pd2, true))
    (h1 : o ≠ pd2.mint) (h2 : o ≠ pd2.proof_of_stake)
    (h3 : o ≠ pd2.standard_payment) :
    pd.update_from (pre ++ (o, n) :: post) = (pd2, false) := by
  induction pre generalizing pd with
  | nil =>
    have h : pd = pd2 := by
      simpa [ProtocolData.update_from, Prod.mk.injEq] using hpre
    subst h
    simp only [List.nil_append, ProtocolData.update_from]
    rw [if_neg h1, if_neg h2, if_neg h3]
  | cons hd tl ih =>
    obtain ⟨a, b⟩ := hd
    simp only [List.cons_append, ProtocolData.update_from] at hpre ⊢
    split_ifs at hpre ⊢ with g1 g2 g3
    · exact ih _ hpre
    · exact ih _ hpre
    · exact ih _ hpre
    · simp at hpre

/-- Witness for the amended claim C1: applying the matching prefix of the
mapping rewrites mint to addrB, and the full mapping with the unmatched pair
appended returns that partially updated record together with failure. -/
theorem update_from_failure_keeps_prefix_updates_witness :
    pdA.update_from [(addrA, addrB)] = (pdB, true) ∧
    addrP ≠ pdB.mint ∧ addrP ≠ pdB.proof_of_stake ∧ addrP ≠ pdB.standard_payment ∧
    pdA.update_from ([(addrA, addrB)] ++ (addrP, addrY) :: []) = (pdB, false) :=
  ⟨by decide, by decide, by decide, by decide,
    update_from_failure_keeps_prefix_updates pdA pdB [(addrA, addrB)] []
      addrP addrY (by decide) (by decide) (by decide) (by decide)⟩

/-- When no pair of the mapping has the given address as its old component,
the lookup finds nothing. -/
theorem lookupHash_eq_none (us : List (ContractHash × ContractHash))
    (a : ContractHash) (h : ∀ p ∈ us, p.1 ≠ a) : lookupHash us a = none := by
  induction us with
  | nil => rfl
  | cons hd tl ih =>
    obtain ⟨o, n⟩ := hd
    simp only [lookupHash]
    rw [if_neg (fun heq => h (o, n) (List.mem_cons_self _ _) heq.symm)]
    exact ih (fun p hp => h p (List.mem_cons_of_mem _ hp))

/-- Counterexample to claim C6 as stated: on the complete record with
mint = addrA, proof_of_stake = addrP, both pairs of the ascending mapping
addrA to addrP, addrP to addrQ have an old address equal to a current slot of
the record, and update_from succeeds, yet the slot matched by the first pair
(mint, the only slot holding addrA) does not hold that pair's new address
addrP afterwards: the second pair re-matched the freshly written mint slot
and overwrote it with addrQ. -/
theorem update_from_all_matched_overwrite_cex :
    (∀ p ∈ [(addrA, addrP), (addrP, addrQ)],
      p.1 = pdFull.mint ∨ p.1 = pdFull.proof_of_stake ∨
        p.1 = pdFull.standard_payment) ∧
    hashLtB addrA addrP = true ∧
    pdFull.mint = addrA ∧
    pdFull.proof_of_stake ≠ addrA ∧ pdFull.standard_payment ≠ addrA ∧
    (pdFull.update_from [(addrA, addrP), (addrP, addrQ)]).2 = true ∧
    (pdFull.update_from [(addrA, addrP), (addrP, addrQ)]).1.mint ≠ addrP := by
  decide

/-- Whenever every pair's old address matches one of the three addresses the
record holds at the moment the pair is processed -- which follows from every
old address matching a pre-call address together with distinct keys -- no
iteration of update_from hits the failure branch, so the call succeeds; no
distinctness of slots or freshness of new addresses is needed. -/
theorem update_from_matched_succeeds (pd : ProtocolData)
    (us : List (ContractHash × ContractHash))
    (hkeys : (us.map Prod.fst).Nodup)
    (hold : ∀ p ∈ us,
      p.1 = pd.mint ∨ p.1 = pd.proof_of_stake ∨ p.1 = pd.standard_payment) :
    (pd.update_from us).2 = true := by
  induction us generalizing pd with
  | nil => simp [ProtocolData.update_from]
  | cons hd rest ih =>
    obtain ⟨o, n⟩ := hd
    obtain ⟨hknotin, hkeys2⟩ := List.nodup_cons.mp hkeys
    have hrko : ∀ p ∈ rest, p.1 ≠ o := by
      intro p hp heq
      apply hknotin
      rw [← heq]
      exact List.mem_map.mpr ⟨p, hp, rfl⟩
    simp only [ProtocolData.update_from]
    by_cases c1 : o = pd.mint
    · rw [if_pos c1]
      apply ih _ hkeys2
      intro p hp
      rcases hold p (List.mem_cons_of_mem _ hp) with h | h | h
      · exact absurd (h.trans c1.symm) (hrko p hp)
      · exact Or.inr (Or.inl h)
      · exact Or.inr (Or.inr h)
    · rw [if_neg c1]
      by_cases c2 : o = pd.proof_of_stake
      · rw [if_pos c2]
        apply ih _ hkeys2
        intro p hp
        rcases hold p (List.mem_cons_of_mem _ hp) with h | h | h
        · exact Or.inl h
        · exact absurd (h.trans c2.symm) (hrko p hp)
        · exact Or.inr (Or.inr h)
      · rw [if_neg c2]
        by_cases c3 : o = pd.standard_payment
        · rw [if_pos c3]
          apply ih _ hkeys2
          intro p hp
          rcases hold p (List.mem_cons_of_mem _ hp) with h | h | h
          · exact Or.inl h
          · exact Or.inr (Or.inl h)
          · exact absurd (h.trans c3.symm) (hrko p hp)
        · rw [if_neg c3]
          rcases hold (o, n) (List.mem_cons_self _ _) with h | h | h
          · exact absurd h c1
          · exact absurd h c2
          · exact absurd h c3

/-- Unique-match characterization of update_from: when the keys are distinct,
each pair's old address matches exactly one slot of the record, and no new
address of any pair equals any old address of any pair, every slot ends up at
the new address of the pair keyed by its initial value (its initial value
when no pair targets it); duplicate new addresses are allowed. -/
theorem update_from_unique_match (pd : ProtocolData)
    (us : List (ContractHash × ContractHash))
    (hkeys : (us.map Prod.fst).Nodup)
    (huniq : ∀ p ∈ us,
      (p.1 = pd.mint ∧ p.1 ≠ pd.proof_of_stake ∧ p.1 ≠ pd.standard_payment) ∨
      (p.1 ≠ pd.mint ∧ p.1 = pd.proof_of_stake ∧ p.1 ≠ pd.standard_payment) ∨
      (p.1 ≠ pd.mint ∧ p.1 ≠ pd.proof_of_stake ∧ p.1 = pd.standard_payment))
    (hcross : ∀ p ∈ us, ∀ q ∈ us, p.2 ≠ q.1) :
    pd.update_from us =
      ({ wasm_costs := pd.wasm_costs,
         mint := (lookupHash us pd.mint).getD pd.mint,
         proof_of_stake :=
           (lookupHash us pd.proof_of_stake).getD pd.proof_of_stake,
         standard_payment :=
           (lookupHash us pd.standard_payment).getD pd.standard_payment },
        true) := by
  induction us generalizing pd with
  | nil => simp [ProtocolData.update_from, lookupHash]
  | cons hd rest ih =>
    obtain ⟨o, n⟩ := hd
    obtain ⟨hknotin, hkeys2⟩ := List.nodup_cons.mp hkeys
    have hrko : ∀ p ∈ rest, p.1 ≠ o := by
      intro p hp heq
      apply hknotin
      rw [← heq]
      exact List.mem_map.mpr ⟨p, hp, rfl⟩
    have hnko : ∀ p ∈ rest, p.1 ≠ n := by
      intro p hp heq
      exact hcross (o, n) (List.mem_cons_self _ _) p
        (List.mem_cons_of_mem _ hp) heq.symm
    have hcrossr : ∀ p ∈ rest, ∀ q ∈ rest, p.2 ≠ q.1 :=
      fun p hp q hq => hcross p (List.mem_cons_of_mem _ hp) q
        (List.mem_cons_of_mem _ hq)
    have Ln : lookupHash rest n = none :=
      lookupHash_eq_none rest n (fun p hp => hnko p hp)
    rcases huniq (o, n) (List.mem_cons_self _ _) with
      ⟨ho1, ho2, ho3⟩ | ⟨ho1, ho2, ho3⟩ | ⟨ho1, ho2, ho3⟩
    · -- the pair matches exactly the mint slot
      have step : pd.update_from ((o, n) :: rest) =
          ProtocolData.update_from { pd with mint := n } rest := by
        simp only [ProtocolData.update_from]
        rw [if_pos ho1]
      have ihc := ih { pd with mint := n } hkeys2
        (by
          intro p hp
          rcases huniq p (List.mem_cons_of_mem _ hp) with
            ⟨h1, h2, h3⟩ | ⟨h1, h2, h3⟩ | ⟨h1, h2, h3⟩
          · exact absurd (h1.trans ho1.symm) (hrko p hp)
          · exact Or.inr (Or.inl ⟨hnko p hp, h2, h3⟩)
          · exact Or.inr (Or.inr ⟨hnko p hp, h2, h3⟩))
        hcrossr
      have Lm : lookupHash ((o, n) :: rest) pd.mint = some n := by
        simp only [lookupHash]
        rw [if_pos ho1.symm]
      have Lp : lookupHash ((o, n) :: rest) pd.proof_of_stake =
          lookupHash rest pd.proof_of_stake := by
        simp only [lookupHash]
        rw [if_neg (fun heq => ho2 heq.symm)]
      have Ls : lookupHash ((o, n) :: rest) pd.standard_payment =
          lookupHash rest pd.standard_payment := by
        simp only [lookupHash]
        rw [if_neg (fun heq => ho3 heq.symm)]
      rw [step, ihc]
      simp only [Lm, Lp, Ls, Ln, Option.getD_some, Option.getD_none]
    · -- the pair matches exactly the proof-of-stake slot
      have step : pd.update_from ((o, n) :: rest) =
          ProtocolData.update_from { pd with proof_of_stake := n } rest := by
        simp only [ProtocolData.update_from]
        rw [if_neg ho1, if_pos ho2]
      have ihc := ih { pd with proof_of_stake := n } hkeys2
        (by
          intro p hp
          rcases huniq p (List.mem_cons_of_mem _ hp) with
            ⟨h1, h2, h3⟩ | ⟨h1, h2, h3⟩ | ⟨h1, h2, h3⟩
          · exact Or.inl ⟨h1, hnko p hp, h3⟩
          · exact absurd (h2.trans ho2.symm) (hrko p hp)
          · exact Or.inr (Or.inr ⟨h1, hnko p hp, h3⟩))
        hcrossr
      have Lm : lookupHash ((o, n) :: rest) pd.mint =
          lookupHash rest pd.mint := by
        simp only [lookupHash]
        rw [if_neg (fun heq => ho1 heq.symm)]
      have Lp : lookupHash ((o, n) :: rest) pd.proof_of_stake = some n := by
        simp only [lookupHash]
        rw [if_pos ho2.symm]
      have Ls : lookupHash ((o, n) :: rest) pd.standard_payment =
          lookupHash rest pd.standard_payment := by
        simp only [lookupHash]
        rw [if_neg (fun heq => ho3 heq.symm)]
      rw [step, ihc]
      simp only [Lm, Lp, Ls, Ln, Option.getD_some, Option.getD_none]
    · -- the pair matches exactly the standard-payment slot
      have step : pd.update_from ((o, n) :: rest) =
          ProtocolData.update_from { pd with standard_payment := n } rest := by
        simp only [ProtocolData.update_from]
        rw [if_neg ho1, if_neg ho2, if_pos ho3]
      have ihc := ih { pd with standard_payment := n } hkeys2
        (by
          intro p hp
          rcases huniq p (List.mem_cons_of_mem _ hp) with
            ⟨h1, h2, h3⟩ | ⟨h1, h2, h3⟩ | ⟨h1, h2, h3⟩
          · exact Or.inl ⟨h1, h2, hnko p hp⟩
          · exact Or.inr (Or.inl ⟨h1, h2, hnko p hp⟩)
          · exact absurd (h3.trans ho3.symm) (hrko p hp))
        hcrossr
      have Lm : lookupHash ((o, n) :: rest) pd.mint =
          lookupHash rest pd.mint := by
        simp only [lookupHash]
        rw [if_neg (fun heq => ho1 heq.symm)]
      have Lp : lookupHash ((o, n) :: rest) pd.proof_of_stake =
          lookupHash rest pd.proof_of_stake := by
        simp only [lookupHash]
        rw [if_neg (fun heq => ho2 heq.symm)]
      have Ls : lookupHash ((o, n) :: rest) pd.standard_payment = some n := by
        simp only [lookupHash]
        rw [if_pos ho3.symm]
      rw [step, ihc]
      simp only [Lm, Lp, Ls, Ln, Option.getD_some, Option.getD_none]

/-- Claim C6 amended: when every pair's old address equals one of the three
addresses the record held before the call and the keys are distinct (as a
BTreeMap guarantees), update_from returns success; and provided additionally
that the three pre-call addresses are pairwise distinct and each pair's new
address differs from all three pre-call addresses, each pair's matched slot
holds the pair's new address afterwards while untargeted slots keep their
pre-call values.  Without the freshness side condition a later pair can
re-match a slot just written by an earlier pair and overwrite it. -/
theorem update_from_all_matched_spec (pd : ProtocolData)
    (us : List (ContractHash × ContractHash))
    (hkeys : (us.map Prod.fst).Nodup)
    (hold : ∀ p ∈ us,
      p.1 = pd.mint ∨ p.1 = pd.proof_of_stake ∨ p.1 = pd.standard_payment) :
    (pd.update_from us).2 = true ∧
    (pd.mint ≠ pd.proof_of_stake → pd.mint ≠ pd.standard_payment →
     pd.proof_of_stake ≠ pd.standard_payment →
     (∀ p ∈ us, p.2 ≠ pd.mint ∧ p.2 ≠ pd.proof_of_stake ∧
       p.2 ≠ pd.standard_payment) →
     pd.update_from us =
       ({ wasm_costs := pd.wasm_costs,
          mint := (lookupHash us pd.mint).getD pd.mint,
          proof_of_stake :=
            (lookupHash us pd.proof_of_stake).getD pd.proof_of_stake,
          standard_payment :=
            (lookupHash us pd.standard_payment).getD pd.standard_payment },
         true)) := by
  refine ⟨update_from_matched_succeeds pd us hkeys hold, ?_⟩
  intro hmp hms hps hfresh
  apply update_from_unique_match pd us hkeys
  · intro p hp
    rcases hold p hp with h | h | h
    · exact Or.inl ⟨h, fun heq => hmp (h.symm.trans heq),
        fun heq => hms (h.symm.trans heq)⟩
    · exact Or.inr (Or.inl ⟨fun heq => hmp (heq.symm.trans h), h,
        fun heq => hps (h.symm.trans heq)⟩)
    · exact Or.inr (Or.inr ⟨fun heq => hms (heq.symm.trans h),
        fun heq => hps (heq.symm.trans h), h⟩)
  · intro p hp q hq heq
    obtain ⟨f1, f2, f3⟩ := hfresh p hp
    rcases hold q hq with h | h | h
    · exact f1 (heq.trans h)
    · exact f2 (heq.trans h)
    · exact f3 (heq.trans h)

/-- Witness for the amended claim C6: on the complete record the mapping
addrA to addrQ, addrP to addrR has distinct keys all matching pre-call
slots, so the call succeeds; the slots are pairwise distinct and the new
addresses are fresh, and indeed mint ends at addrQ, proof_of_stake at addrR,
standard_payment stays addrS. -/
theorem update_from_all_matched_spec_witness :
    ((([(addrA, addrQ), (addrP, addrR)].map Prod.fst).Nodup) ∧
     (∀ p ∈ [(addrA, addrQ), (addrP, addrR)],
       p.1 = pdFull.mint ∨ p.1 = pdFull.proof_of_stake ∨
         p.1 = pdFull.standard_payment) ∧
     pdFull.mint ≠ pdFull.proof_of_stake ∧
     pdFull.mint ≠ pdFull.standard_payment ∧
     pdFull.proof_of_stake ≠ pdFull.standard_payment ∧
     (∀ p ∈ [(addrA, addrQ), (addrP, addrR)],
       p.2 ≠ pdFull.mint ∧ p.2 ≠ pdFull.proof_of_stake ∧
         p.2 ≠ pdFull.standard_payment)) ∧
    (pdFull.update_from [(addrA, addrQ), (addrP, addrR)]).2 = true ∧
    pdFull.update_from [(addrA, addrQ), (addrP, addrR)] =
      ({ wasm_costs := wasm_costs_mock, mint := addrQ,
         proof_of_stake := addrR, standard_payment := addrS }, true) := by
  refine ⟨by decide, ?_, ?_⟩
  · exact (update_from_all_matched_spec pdFull [(addrA, addrQ), (addrP, addrR)]
      (by decide) (by decide)).1
  · have h := (update_from_all_matched_spec pdFull
      [(addrA, addrQ), (addrP, addrR)] (by decide) (by decide)).2
      (by decide) (by decide) (by decide) (by decide)
    rw [h]
    decide

/-- Reading back the four little-endian bytes of a u32 recovers it and leaves
the trailing bytes untouched. -/
theorem fromBytesU32_toBytesU32 (n : Nat) (h : n < 4294967296)
    (rest : List Nat) :
    fromBytesU32 (toBytesU32 n ++ rest) = some (n, rest) := by
  simp only [toBytesU32, List.cons_append, List.nil_append, fromBytesU32,
    Option.some.injEq, Prod.mk.injEq, and_true]
  omega

/-- A serialized wasm cost table is forty bytes long. -/
theorem WasmCosts.to_bytes_length (w : WasmCosts) : w.to_bytes.length = 40 := by
  simp [WasmCosts.to_bytes, toBytesU32]

/-- Reading back a serialized well-formed wasm cost table recovers it and
leaves the trailing bytes untouched. -/
theorem WasmCosts.from_bytes_to_bytes (w : WasmCosts) (hw : w.WF)
    (rest : List Nat) :
    WasmCosts.from_bytes (w.to_bytes ++ rest) = some (w, rest) := by
  obtain ⟨h1, h2, h3, h4, h5, h6, h7, h8, h9, h10⟩ := hw
  rw [WasmCosts.from_bytes, WasmCosts.to_bytes]
  simp only [List.append_assoc]
  rw [fromBytesU32_toBytesU32 _ h1]
  simp only [Option.pure_def, Option.bind_eq_bind, Option.some_bind]
  rw [fromBytesU32_toBytesU32 _ h2]
  simp only [Option.pure_def, Option.bind_eq_bind, Option.some_bind]
  rw [fromBytesU32_toBytesU32 _ h3]
  simp only [Option.pure_def, Option.bind_eq_bind, Option.some_bind]
  rw [fromBytesU32_toBytesU32 _ h4]
  simp only [Option.pure_def, Option.bind_eq_bind, Option.some_bind]
  rw [fromBytesU32_toBytesU32 _ h5]
  simp only [Option.pure_def, Option.bind_eq_bind, Option.some_bind]
  rw [fromBytesU32_toBytesU32 _ h6]
  simp only [Option.pure_def, Option.bind_eq_bind, Option.some_bind]
  rw [fromBytesU32_toBytesU32 _ h7]
  simp only [Option.pure_def, Option.bind_eq_bind, Option.some_bind]
  rw [fromBytesU32_toBytesU32 _ h8]
  simp only [Option.pure_def, Option.bind_eq_bind, Option.some_bind]
  rw [fromBytesU32_toBytesU32 _ h9]
  simp only [Option.pure_def, Option.bind_eq_bind, Option.some_bind]
  rw [fromBytesU32_toBytesU32 _ h10]
  simp only [Option.pure_def, Option.bind_eq_bind, Option.some_bind]

/-- Reading back a 32-byte hash from the front of a buffer recovers it and
leaves the trailing bytes untouched. -/
theorem fromBytesHash_append (h : ContractHash) (hh : h.length = 32)
    (rest : List Nat) :
    fromBytesHash (h ++ rest) = some (h, rest) := by
  have hlen : 32 ≤ (h ++ rest).length := by simp [hh]
  simp only [fromBytesHash, if_pos hlen]
  rw [← hh, List.take_left, List.drop_left]

/-- Reading back a 32-byte hash that fills the whole buffer recovers it with
an empty remainder. -/
theorem fromBytesHash_exact (h : ContractHash) (hh : h.length = 32) :
    fromBytesHash h = some (h, []) := by
  simp only [fromBytesHash, if_pos (le_of_eq hh.symm)]
  rw [← hh, List.take_length, List.drop_length]

/-- Claim C2: for every well-formed protocol data record (any cost table and
any three 32-byte addresses, the zero sentinel included), decoding the bytes
produced by encoding yields the record back with no bytes left over, and the
encoding is exactly the serialized cost-table length plus 96 bytes long. -/
theorem protocol_data_roundtrip (pd : ProtocolData) (h : pd.WF) :
    ProtocolData.from_bytes pd.to_bytes = some (pd, []) ∧
    pd.to_bytes.length = WASM_COSTS_SERIALIZED_LENGTH + 96 := by
  obtain ⟨hw, hm, hmb, hp, hpb, hs, hsb⟩ := h
  constructor
  · have e : pd.to_bytes = pd.wasm_costs.to_bytes ++
        (pd.mint ++ (pd.proof_of_stake ++ pd.standard_payment)) := by
      simp [ProtocolData.to_bytes]
    rw [e, ProtocolData.from_bytes]
    rw [WasmCosts.from_bytes_to_bytes _ hw]
    simp only [Option.pure_def, Option.bind_eq_bind, Option.some_bind]
    rw [fromBytesHash_append _ hm]
    simp only [Option.pure_def, Option.bind_eq_bind, Option.some_bind]
    rw [fromBytesHash_append _ hp]
    simp only [Option.pure_def, Option.bind_eq_bind, Option.some_bind]
    rw [fromBytesHash_exact _ hs]
    simp only [Option.pure_def, Option.bind_eq_bind, Option.some_bind]
  · simp [ProtocolData.to_bytes, WasmCosts.to_bytes_length, hm, hp, hs,
      WASM_COSTS_SERIALIZED_LENGTH]

/-- Witness for claim C2 at a concrete complete record: encoding then
decoding pdFull returns pdFull exactly, consuming all 136 bytes. -/
theorem protocol_data_roundtrip_witness :
    pdFull.WF ∧
    (ProtocolData.from_bytes pdFull.to_bytes = some (pdFull, []) ∧
     pdFull.to_bytes.length = WASM_COSTS_SERIALIZED_LENGTH + 96) :=
  ⟨by decide, protocol_data_roundtrip pdFull (by decide)⟩

/-- Reading a u32 fails exactly on buffers shorter than four bytes and
otherwise consumes exactly four bytes. -/
theorem fromBytesU32_cases (bs : List Nat) :
    (bs.length < 4 ∧ fromBytesU32 bs = none) ∨
    (4 ≤ bs.length ∧ ∃ v, fromBytesU32 bs = some (v, bs.drop 4)) := by
  match bs with
  | [] => exact Or.inl ⟨by simp, rfl⟩
  | [b0] => exact Or.inl ⟨by simp, rfl⟩
  | [b0, b1] => exact Or.inl ⟨by simp, rfl⟩
  | [b0, b1, b2] => exact Or.inl ⟨by simp, rfl⟩
  | b0 :: b1 :: b2 :: b3 :: rest => exact Or.inr ⟨by simp, _, rfl⟩

/-- Reading a hash fails exactly on buffers shorter than 32 bytes and
otherwise consumes exactly 32 bytes. -/
theorem fromBytesHash_cases (bs : List Nat) :
    (bs.length < 32 ∧ fromBytesHash bs = none) ∨
    (32 ≤ bs.length ∧ ∃ h, fromBytesHash bs = some (h, bs.drop 32)) := by
  by_cases h : 32 ≤ bs.length
  · exact Or.inr ⟨h, bs.take 32, by simp [fromBytesHash, h]⟩
  · exact Or.inl ⟨by omega, by simp [fromBytesHash, h]⟩

/-- Reading a wasm cost table fails exactly on buffers shorter than forty
bytes and otherwise consumes exactly forty bytes. -/
theorem WasmCosts.from_bytes_cases (bs : List Nat) :
    (bs.length < 40 ∧ WasmCosts.from_bytes bs = none) ∨
    (40 ≤ bs.length ∧ ∃ w, WasmCosts.from_bytes bs = some (w, bs.drop 40)) := by
  rw [WasmCosts.from_bytes]
  rcases fromBytesU32_cases bs with ⟨hl1, he1⟩ | ⟨hl1, v1, he1⟩
  · refine Or.inl ⟨by omega, ?_⟩
    simp only [he1, Option.pure_def, Option.bind_eq_bind, Option.none_bind]
  · rw [he1]
    simp only [Option.pure_def, Option.bind_eq_bind, Option.some_bind]
    have hn1 : (bs.drop 4).length = bs.length - 4 := List.length_drop _ _
    rcases fromBytesU32_cases (bs.drop 4) with ⟨hl2, he2⟩ | ⟨hl2, v2, he2⟩
    · refine Or.inl ⟨by omega, ?_⟩
      simp only [he2, Option.pure_def, Option.bind_eq_bind, Option.none_bind]
    · rw [he2, show (bs.drop 4).drop 4 = bs.drop 8 from by rw [List.drop_drop]]
      simp only [Option.pure_def, Option.bind_eq_bind, Option.some_bind]
      have hn2 : (bs.drop 8).length = bs.length - 8 := List.length_drop _ _
      rcases fromBytesU32_cases (bs.drop 8) with ⟨hl3, he3⟩ | ⟨hl3, v3, he3⟩
      · refine Or.inl ⟨by omega, ?_⟩
        simp only [he3, Option.pure_def, Option.bind_eq_bind, Option.none_bind]
      · rw [he3, show (bs.drop 8).drop 4 = bs.drop 12 from by rw [List.drop_drop]]
        simp only [Option.pure_def, Option.bind_eq_bind, Option.some_bind]
        have hn3 : (bs.drop 12).length = bs.length - 12 := List.length_drop _ _
        rcases fromBytesU32_cases (bs.drop 12) with ⟨hl4, he4⟩ | ⟨hl4, v4, he4⟩
        · refine Or.inl ⟨by omega, ?_⟩
          simp only [he4, Option.pure_def, Option.bind_eq_bind, Option.none_bind]
        · rw [he4, show (bs.drop 12).drop 4 = bs.drop 16 from by rw [List.drop_drop]]
          simp only [Option.pure_def, Option.bind_eq_bind, Option.some_bind]
          have hn4 : (bs.drop 16).length = bs.length - 16 := List.length_drop _ _
          rcases fromBytesU32_cases (bs.drop 16) with ⟨hl5, he5⟩ | ⟨hl5, v5, he5⟩
          · refine Or.inl ⟨by omega, ?_⟩
            simp only [he5, Option.pure_def, Option.bind_eq_bind, Option.none_bind]
          · rw [he5, show (bs.drop 16).drop 4 = bs.drop 20 from by rw [List.drop_drop]]
            simp only [Option.pure_def, Option.bind_eq_bind, Option.some_bind]
            have hn5 : (bs.drop 20).length = bs.length - 20 := List.length_drop _ _
            rcases fromBytesU32_cases (bs.drop 20) with ⟨hl6, he6⟩ | ⟨hl6, v6, he6⟩
            · refine Or.inl ⟨by omega, ?_⟩
              simp only [he6, Option.pure_def, Option.bind_eq_bind, Option.none_bind]
            · rw [he6, show (bs.drop 20).drop 4 = bs.drop 24 from by rw [List.drop_drop]]
              simp only [Option.pure_def, Option.bind_eq_bind, Option.some_bind]
              have hn6 : (bs.drop 24).length = bs.length - 24 := List.length_drop _ _
              rcases fromBytesU32_cases (bs.drop 24) with ⟨hl7, he7⟩ | ⟨hl7, v7, he7⟩
              · refine Or.inl ⟨by omega, ?_⟩
                simp only [he7, Option.pure_def, Option.bind_eq_bind, Option.none_bind]
              · rw [he7, show (bs.drop 24).drop 4 = bs.drop 28 from by rw [List.drop_drop]]
                simp only [Option.pure_def, Option.bind_eq_bind, Option.some_bind]
                have hn7 : (bs.drop 28).length = bs.length - 28 := List.length_drop _ _
                rcases fromBytesU32_cases (bs.drop 28) with ⟨hl8, he8⟩ | ⟨hl8, v8, he8⟩
                · refine Or.inl ⟨by omega, ?_⟩
                  simp only [he8, Option.pure_def, Option.bind_eq_bind, Option.none_bind]
                · rw [he8, show (bs.drop 28).drop 4 = bs.drop 32 from by rw [List.drop_drop]]
                  simp only [Option.pure_def, Option.bind_eq_bind, Option.some_bind]
                  have hn8 : (bs.drop 32).length = bs.length - 32 := List.length_drop _ _
                  rcases fromBytesU32_cases (bs.drop 32) with ⟨hl9, he9⟩ | ⟨hl9, v9, he9⟩
                  · refine Or.inl ⟨by omega, ?_⟩
                    simp only [he9, Option.pure_def, Option.bind_eq_bind, Option.none_bind]
                  · rw [he9, show (bs.drop 32).drop 4 = bs.drop 36 from by rw [List.drop_drop]]
                    simp only [Option.pure_def, Option.bind_eq_bind, Option.some_bind]
                    have hn9 : (bs.drop 36).length = bs.length - 36 := List.length_drop _ _
                    rcases fromBytesU32_cases (bs.drop 36) with ⟨hl10, he10⟩ | ⟨hl10, v10, he10⟩
                    · refine Or.inl ⟨by omega, ?_⟩
                      simp only [he10, Option.pure_def, Option.bind_eq_bind, Option.none_bind]
                    · rw [he10, show (bs.drop 36).drop 4 = bs.drop 40 from by rw [List.drop_drop]]
                      simp only [Option.pure_def, Option.bind_eq_bind, Option.some_bind]
                      exact Or.inr ⟨by omega, _, rfl⟩

/-- Claim C7: decoding a protocol data record consumes exactly the
serialized cost-table length plus 96 bytes (136 in total) and fails with a
decode error on every shorter buffer, including when the cost-table
sub-decode itself runs out of bytes; on longer buffers it consumes exactly
that many bytes and returns the remainder. -/
theorem protocol_data_from_bytes_exact_length (bs : List Nat) :
    (bs.length < PROTOCOL_DATA_SERIALIZED_LENGTH ∧
      ProtocolData.from_bytes bs = none) ∨
    (PROTOCOL_DATA_SERIALIZED_LENGTH ≤ bs.length ∧
      ∃ pd, ProtocolData.from_bytes bs =
        some (pd, bs.drop PROTOCOL_DATA_SERIALIZED_LENGTH)) := by
  have hL : PROTOCOL_DATA_SERIALIZED_LENGTH = 136 := rfl
  rw [hL, ProtocolData.from_bytes]
  rcases WasmCosts.from_bytes_cases bs with ⟨hl1, he1⟩ | ⟨hl1, w, he1⟩
  · refine Or.inl ⟨by omega, ?_⟩
    simp only [he1, Option.pure_def, Option.bind_eq_bind, Option.none_bind]
  · rw [he1]
    simp only [Option.pure_def, Option.bind_eq_bind, Option.some_bind]
    have hn1 : (bs.drop 40).length = bs.length - 40 := List.length_drop _ _
    rcases fromBytesHash_cases (bs.drop 40) with ⟨hl2, he2⟩ | ⟨hl2, m, he2⟩
    · refine Or.inl ⟨by omega, ?_⟩
      simp only [he2, Option.pure_def, Option.bind_eq_bind, Option.none_bind]
    · rw [he2, show (bs.drop 40).drop 32 = bs.drop 72 from by rw [List.drop_drop]]
      simp only [Option.pure_def, Option.bind_eq_bind, Option.some_bind]
      have hn2 : (bs.drop 72).length = bs.length - 72 := List.length_drop _ _
      rcases fromBytesHash_cases (bs.drop 72) with ⟨hl3, he3⟩ | ⟨hl3, p, he3⟩
      · refine Or.inl ⟨by omega, ?_⟩
        simp only [he3, Option.pure_def, Option.bind_eq_bind, Option.none_bind]
      · rw [he3, show (bs.drop 72).drop 32 = bs.drop 104 from by rw [List.drop_drop]]
        simp only [Option.pure_def, Option.bind_eq_bind, Option.some_bind]
        have hn3 : (bs.drop 104).length = bs.length - 104 := List.length_drop _ _
        rcases fromBytesHash_cases (bs.drop 104) with ⟨hl4, he4⟩ | ⟨hl4, s, he4⟩
        · refine Or.inl ⟨by omega, ?_⟩
          simp only [he4, Option.pure_def, Option.bind_eq_bind, Option.none_bind]
        · rw [he4, show (bs.drop 104).drop 32 = bs.drop 136 from by rw [List.drop_drop]]
          simp only [Option.pure_def, Option.bind_eq_bind, Option.some_bind]
          exact Or.inr ⟨by omega, _, rfl⟩

/-- Adding references to a group that exists succeeds and enlarges the union
of all group memberships by exactly the added set. -/
theorem addToGroup_bigUnion (gs : List (String × Finset Nat)) (name : String)
    (add : Finset Nat) (hname : name ∈ gs.map Prod.fst) :
    ∃ gs2, addToGroup gs name add = some gs2 ∧
      bigUnion gs2 = bigUnion gs ∪ add := by
  induction gs with
  | nil => simp at hname
  | cons hd rest ih =>
    obtain ⟨n, s⟩ := hd
    by_cases h : n = name
    · refine ⟨(n, s ∪ add) :: rest, by simp [addToGroup, h], ?_⟩
      show (s ∪ add) ∪ bigUnion rest = (s ∪ bigUnion rest) ∪ add
      ext x
      simp [Finset.mem_union]
      tauto
    · have hname2 : name ∈ rest.map Prod.fst := by
        simp only [List.map_cons, List.mem_cons] at hname
        rcases hname with h1 | h1
        · exact absurd h1.symm h
        · exact h1
      obtain ⟨gs2, e, hu⟩ := ih hname2
      refine ⟨(n, s) :: gs2, by simp [addToGroup, h, e], ?_⟩
      show s ∪ bigUnion gs2 = (s ∪ bigUnion rest) ∪ add
      rw [hu, Finset.union_assoc]

/-- An extension mints exactly as many distinct references as requested. -/
theorem card_mintSet (next count : Nat) : (mintSet next count).card = count := by
  rw [mintSet, Finset.card_image_of_injective _ (add_right_injective next),
    Finset.card_range]

/-- Freshly minted references are disjoint from every reference already held
by the contract. -/
theorem mintSet_disjoint (u : Finset Nat) (next count : Nat)
    (h : ∀ x ∈ u, x < next) : Disjoint u (mintSet next count) := by
  rw [Finset.disjoint_left]
  intro x hx hmem
  rw [mintSet, Finset.mem_image] at hmem
  obtain ⟨i, hi, hix⟩ := hmem
  have := h x hx
  omega

/-- Claim C3: for a contract whose groups hold t distinct references in
total, extending an existing group by a count with t + count over
MAX_GROUP_UREFS fails with MaxTotalURefsExceeded before any mutation, while
extending by MAX_GROUP_UREFS - t succeeds and brings the contract-wide total
to exactly MAX_GROUP_UREFS; the cap constrains the total across all groups
of the contract, not any single group. -/
theorem extend_group_urefs_cap (m : ContractMetadata) (name : String)
    (count : Nat) (hwf : m.WF) (hname : name ∈ m.groups.map Prod.fst)
    (hle : totalURefs m ≤ MAX_GROUP_UREFS) :
    (MAX_GROUP_UREFS < totalURefs m + count →
      extend_group_urefs m name count =
        Except.error GroupError.maxTotalURefsExceeded) ∧
    ∃ m2, extend_group_urefs m name (MAX_GROUP_UREFS - totalURefs m) =
        Except.ok m2 ∧ totalURefs m2 = MAX_GROUP_UREFS := by
  constructor
  · intro hover
    rw [extend_group_urefs, if_pos hover]
  · obtain ⟨gs2, e, hu⟩ := addToGroup_bigUnion m.groups name
      (mintSet m.next (MAX_GROUP_UREFS - totalURefs m)) hname
    refine ⟨ContractMetadata.mk gs2
      (m.next + (MAX_GROUP_UREFS - totalURefs m)), ?_, ?_⟩
    · rw [extend_group_urefs, if_neg (by omega), e]
    · show (bigUnion gs2).card = MAX_GROUP_UREFS
      rw [hu, Finset.card_union_of_disjoint (mintSet_disjoint _ _ _ hwf),
        card_mintSet]
      have ht : (bigUnion m.groups).card = totalURefs m := rfl
      omega

/-- Witness for claim C3: with nine references spread over two groups,
extending the two-element group by two fails with MaxTotalURefsExceeded
(the cap is contract-wide), while extending it by the single remaining unit
succeeds and reaches exactly MAX_GROUP_UREFS. -/
theorem extend_group_urefs_cap_witness :
    (mdW.WF ∧ "Group 1" ∈ mdW.groups.map Prod.fst ∧
     totalURefs mdW ≤ MAX_GROUP_UREFS ∧
     MAX_GROUP_UREFS < totalURefs mdW + 2) ∧
    extend_group_urefs mdW "Group 1" 2 =
      Except.error GroupError.maxTotalURefsExceeded ∧
    (∃ m2, extend_group_urefs mdW "Group 1" (MAX_GROUP_UREFS - totalURefs mdW) =
      Except.ok m2 ∧ totalURefs m2 = MAX_GROUP_UREFS) :=
  ⟨by decide,
    (extend_group_urefs_cap mdW "Group 1" 2
      (by decide) (by decide) (by decide)).1 (by decide),
    (extend_group_urefs_cap mdW "Group 1" 2
      (by decide) (by decide) (by decide)).2⟩

/-- Removing references from a group that exists succeeds, subtracts exactly
the listed set from that group, and keeps every other entry. -/
theorem removeFromGroup_spec (gs : List (String × Finset Nat)) (name : String)
    (rem s1 : Finset Nat) (hnodup : (gs.map Prod.fst).Nodup)
    (h1 : (name, s1) ∈ gs) :
    ∃ gs2, removeFromGroup gs name rem = some gs2 ∧
      (name, s1 \ rem) ∈ gs2 ∧ ∀ e ∈ gs, e.1 ≠ name → e ∈ gs2 := by
  induction gs with
  | nil => simp at h1
  | cons hd rest ih =>
    obtain ⟨n, s⟩ := hd
    simp only [List.map_cons] at hnodup
    obtain ⟨hnotin, hnd2⟩ := List.nodup_cons.mp hnodup
    by_cases h : n = name
    · subst h
      have hs : s1 = s := by
        rcases List.mem_cons.mp h1 with he | hm
        · exact (Prod.ext_iff.mp he).2
        · exact absurd (List.mem_map.mpr ⟨(n, s1), hm, rfl⟩) hnotin
      subst hs
      refine ⟨(n, s1 \ rem) :: rest, by simp [removeFromGroup], ?_, ?_⟩
      · exact List.mem_cons_self _ _
      · intro e he hne
        rcases List.mem_cons.mp he with he1 | he1
        · exact absurd (by rw [he1]) hne
        · exact List.mem_cons_of_mem _ he1
    · have h1r : (name, s1) ∈ rest := by
        rcases List.mem_cons.mp h1 with he | hm
        · exact absurd (congrArg Prod.fst he).symm h
        · exact hm
      obtain ⟨gs2, e, hmem, hpres⟩ := ih hnd2 h1r
      refine ⟨(n, s) :: gs2, by simp [removeFromGroup, h, e],
        List.mem_cons_of_mem _ hmem, ?_⟩
      intro q hq hqne
      rcases List.mem_cons.mp hq with hq1 | hq1
      · rw [hq1]
        exact List.mem_cons_self _ _
      · exact List.mem_cons_of_mem _ (hpres q hq1 hqne)

/-- Claim C9: when two groups share a reference r, removing one group, or
removing r from it via remove_group_urefs, leaves the other group's
membership (r included) unchanged; and remove_group_urefs ignores listed
references absent from the named group instead of failing. -/
theorem group_removal_frame (m : ContractMetadata) (g1 g2 : String)
    (s1 s2 rem : Finset Nat) (r : Nat)
    (hnodup : (m.groups.map Prod.fst).Nodup)
    (h1 : (g1, s1) ∈ m.groups) (h2 : (g2, s2) ∈ m.groups) (hne : g1 ≠ g2)
    (hr1 : r ∈ s1) (hr2 : r ∈ s2) :
    (∃ m2, remove_group m g1 = Except.ok m2 ∧
      (g2, s2) ∈ m2.groups ∧ r ∈ s2) ∧
    (∃ m3, remove_group_urefs m g1 rem = Except.ok m3 ∧
      (g1, s1 \ rem) ∈ m3.groups ∧ (g2, s2) ∈ m3.groups ∧ r ∈ s2) := by
  constructor
  · have hmemname : g1 ∈ m.groups.map Prod.fst :=
      List.mem_map.mpr ⟨(g1, s1), h1, rfl⟩
    refine ⟨ContractMetadata.mk
      (m.groups.filter (fun g => g.1 ≠ g1)) m.next, ?_, ?_, hr2⟩
    · rw [remove_group, if_pos hmemname]
    · show (g2, s2) ∈ m.groups.filter (fun g => g.1 ≠ g1)
      refine List.mem_filter.mpr ⟨h2, ?_⟩
      simp only [decide_eq_true_eq]
      exact fun hh => hne hh.symm
  · obtain ⟨gs2, e, hmem, hpres⟩ :=
      removeFromGroup_spec m.groups g1 rem s1 hnodup h1
    refine ⟨{ groups := gs2, next := m.next }, ?_, hmem, ?_, hr2⟩
    · rw [remove_group_urefs, e]
    · exact hpres (g2, s2) h2 (fun hh => hne hh.symm)

/-- Witness for claim C9: with reference 0 shared between two groups,
removing the first group keeps the second group's membership (0 included),
and removing the set containing 0 and the absent reference 7 from the first
group succeeds, leaves it holding exactly 1, and keeps the second group
unchanged. -/
theorem group_removal_frame_witness :
    ((mdShared.groups.map Prod.fst).Nodup ∧
     ("Group 1", ({0, 1} : Finset Nat)) ∈ mdShared.groups ∧
     ("Group 2", ({0} : Finset Nat)) ∈ mdShared.groups ∧
     "Group 1" ≠ "Group 2" ∧
     0 ∈ ({0, 1} : Finset Nat) ∧ 0 ∈ ({0} : Finset Nat)) ∧
    (∃ m2, remove_group mdShared "Group 1" = Except.ok m2 ∧
      ("Group 2", ({0} : Finset Nat)) ∈ m2.groups ∧
      0 ∈ ({0} : Finset Nat)) ∧
    (∃ m3, remove_group_urefs mdShared "Group 1" {0, 7} = Except.ok m3 ∧
      ("Group 1", ({0, 1} : Finset Nat) \ {0, 7}) ∈ m3.groups ∧
      ("Group 2", ({0} : Finset Nat)) ∈ m3.groups ∧
      0 ∈ ({0} : Finset Nat)) :=
  ⟨by decide,
    (group_removal_frame mdShared "Group 1" "Group 2" {0, 1} {0} {0, 7} 0
      (by decide) (by decide) (by decide) (by decide) (by decide)
      (by decide)).1,
    (group_removal_frame mdShared "Group 1" "Group 2" {0, 1} {0} {0, 7} 0
      (by decide) (by decide) (by decide) (by decide) (by decide)
      (by decide)).2⟩

end CasperLabs
